import Mathlib

/-!
# Verification of the `sortedslice` library

Shallow embedding of `src/ss.go`: a generic, sorted, key-value slice.
The Go receiver state `ss.data : []kv[K, V]` is modelled as a
`List (kv K V)`; each method becomes a pure function from the current
entry sequence (plus its arguments) to its results and, for mutating
methods, the new entry sequence.  Go type parameters
`K constraints.Ordered` and `V any` become `[LinearOrder K]` and a
plain type `V`; Go zero values become `default` via `Inhabited`.
The `sync.RWMutex` field is a runtime synchronisation artefact with no
pure counterpart and is not part of the state model.
-/

namespace SortedSlice

/-- The entry struct `kv[K, V]` of `ss.go` with fields `Key` and `Value`. -/
structure kv (K V : Type) where
  Key : K
  Value : V
deriving DecidableEq

variable {K V : Type}

/-- Transliteration of the loop inside Go's `sort.Search(n, f)`:
`i, j := 0, n; for i < j { h := (i+j)/2; if !f(h) { i = h+1 } else { j = h } }; return i`.
The loop always terminates because `j - i` strictly decreases, so running it
with structural fuel `≥ j - i` computes the exact loop result (the fuel is
only a termination device, it never changes the value returned). -/
def searchGo (f : Nat → Bool) : Nat → Nat → Nat → Nat
  | 0, i, _ => i
  | fuel + 1, i, j =>
    if i < j then
      if f ((i + j) / 2) then searchGo f fuel i ((i + j) / 2)
      else searchGo f fuel ((i + j) / 2 + 1) j
    else i

/-- Go's `sort.Search(n, f)`: initial interval is `[0, n)` and `n` units of
fuel suffice since `j - i` starts at `n` and strictly decreases. -/
def sortSearch (n : Nat) (f : Nat → Bool) : Nat := searchGo f n 0 n

/-- The search closure every keyed method of `ss.go` passes to
`sort.Search`: `func(i int) bool { return ss.data[i].Key >= key }`.
`sort.Search` only probes indices `0 ≤ i < n`, so the Lean function may be
total; out-of-range indices are read as `true`, matching the convention
that the search returns `len` when no stored key is `≥ key`. -/
def locPred [LinearOrder K] (data : List (kv K V)) (key : K) (i : Nat) :
    Bool :=
  match data[i]? with
  | some e => decide (key ≤ e.Key)
  | none => true

/-- The binary search every keyed method of `ss.go` performs:
`sort.Search(len(ss.data), func(i int) bool { return ss.data[i].Key >= key })`. -/
def locate [LinearOrder K] (data : List (kv K V)) (key : K) : Nat :=
  sortSearch data.length (locPred data key)

/-- `Add` of `ss.go`: if the key at the search index exists and equals `key`,
overwrite that entry's value in place (`ss.data[index].Value = value`);
otherwise insert the new entry at the search index (the
`append`/`copy`/assign sequence in the Go source realises exactly
`take index ++ new :: drop index`). -/
def Add [LinearOrder K] (data : List (kv K V)) (key : K) (value : V) :
    List (kv K V) :=
  match data[locate data key]? with
  | some e =>
    if e.Key = key then data.set (locate data key) ⟨e.Key, value⟩
    else data.take (locate data key) ++ ⟨key, value⟩ :: data.drop (locate data key)
  | none => data.take (locate data key) ++ ⟨key, value⟩ :: data.drop (locate data key)

/-- `Set` of `ss.go`, an alias for `Add`. -/
def Set [LinearOrder K] (data : List (kv K V)) (key : K) (value : V) :
    List (kv K V) :=
  Add data key value

/-- `Store` of `ss.go`, an alias for `Add`. -/
def Store [LinearOrder K] (data : List (kv K V)) (key : K) (value : V) :
    List (kv K V) :=
  Add data key value

/-- `Get` of `ss.go`: binary search, then return `(value, true)` on a key
match and `(zero, false)` otherwise. -/
def Get [LinearOrder K] [Inhabited V] (data : List (kv K V)) (key : K) :
    V × Bool :=
  match data[locate data key]? with
  | some e => if e.Key = key then (e.Value, true) else (default, false)
  | none => (default, false)

/-- `Find` of `ss.go`, an alias for `Get`. -/
def Find [LinearOrder K] [Inhabited V] (data : List (kv K V)) (key : K) :
    V × Bool :=
  Get data key

/-- `Exist` of `ss.go`: `index < len(ss.data) && ss.data[index].Key == key`. -/
def Exist [LinearOrder K] (data : List (kv K V)) (key : K) : Bool :=
  match data[locate data key]? with
  | some e => decide (e.Key = key)
  | none => false

/-- `Delete` of `ss.go`: on a key match remove the entry at the search index
(`append(ss.data[:index], ss.data[index+1:]...)` is
`take index ++ drop (index+1)`) and return the removed value with `true`;
otherwise leave the data alone and return `(zero, false)`.  The first
component is the resulting entry sequence (the Go method mutates
`ss.data` in place). -/
def Delete [LinearOrder K] [Inhabited V] (data : List (kv K V)) (key : K) :
    List (kv K V) × V × Bool :=
  match data[locate data key]? with
  | some e =>
    if e.Key = key then
      (data.take (locate data key) ++ data.drop (locate data key + 1),
       e.Value, true)
    else (data, default, false)
  | none => (data, default, false)

/-- `Remove` of `ss.go`, an alias for `Delete`. -/
def Remove [LinearOrder K] [Inhabited V] (data : List (kv K V)) (key : K) :
    List (kv K V) × V × Bool :=
  Delete data key

/-- `Len` of `ss.go`: `len(ss.data)`. -/
def Len (data : List (kv K V)) : Nat := data.length

/-- `Clear` of `ss.go`: `ss.data = nil`. -/
def Clear (_data : List (kv K V)) : List (kv K V) := []

/-- `Range` of `ss.go` iterates forward over `ss.data`, calling `f` on each
entry and stopping at the first `false`.  The model returns the trace of
visited entries, in visit order (the entry on which `f` returns `false`
is still visited). -/
def Range (f : K → V → Bool) : List (kv K V) → List (kv K V)
  | [] => []
  | e :: rest => if f e.Key e.Value then e :: Range f rest else [e]

/-- `RangeBackward` of `ss.go` reads `ss.data[len(ss.data)-i-1]` for
`i = 0, 1, ...`, i.e. it performs the same early-exit traversal over the
reversed sequence. -/
def RangeBackward (f : K → V → Bool) (data : List (kv K V)) :
    List (kv K V) :=
  Range f data.reverse

/-- `First` of `ss.go`: zero value when empty, else `ss.data[0].Value`. -/
def First [Inhabited V] (data : List (kv K V)) : V :=
  if h : data.length = 0 then default
  else (data.get ⟨0, by omega⟩).Value

/-- `Last` of `ss.go`: zero value when empty, else
`ss.data[len(ss.data)-1].Value`. -/
def Last [Inhabited V] (data : List (kv K V)) : V :=
  if h : data.length = 0 then default
  else (data.get ⟨data.length - 1, by omega⟩).Value

/-- `Min` of `ss.go`, an alias for `First`. -/
def Min [Inhabited V] (data : List (kv K V)) : V := First data

/-- `Max` of `ss.go`, an alias for `Last`. -/
def Max [Inhabited V] (data : List (kv K V)) : V := Last data

/-- `FirstKey` of `ss.go`: zero key when empty, else `ss.data[0].Key`. -/
def FirstKey [Inhabited K] (data : List (kv K V)) : K :=
  if h : data.length = 0 then default
  else (data.get ⟨0, by omega⟩).Key

/-- `LastKey` of `ss.go`: zero key when empty, else
`ss.data[len(ss.data)-1].Key`. -/
def LastKey [Inhabited K] (data : List (kv K V)) : K :=
  if h : data.length = 0 then default
  else (data.get ⟨data.length - 1, by omega⟩).Key

/-- `MinKey` of `ss.go`, an alias for `FirstKey`. -/
def MinKey [Inhabited K] (data : List (kv K V)) : K := FirstKey data

/-- `MaxKey` of `ss.go`, an alias for `LastKey`. -/
def MaxKey [Inhabited K] (data : List (kv K V)) : K := LastKey data

/-- Model of a gob-encoded snapshot file written by `Save`: a
self-describing blob holding the entry count and the flattened stream of
encoded keys and values, in sequence order.  The byte-level gob format is
implementation-internal to Go's standard library; the model keeps the
level of structure the format is specified to have. -/
structure GobFile (K V : Type) where
  count : Nat
  stream : List (K ⊕ V)
deriving DecidableEq

/-- The per-entry encoding step of the snapshot: each entry contributes its
encoded key followed by its encoded value. -/
def encodeEntries : List (kv K V) → List (K ⊕ V)
  | [] => []
  | e :: rest => Sum.inl e.Key :: Sum.inr e.Value :: encodeEntries rest

/-- The decoding half of the snapshot codec: read exactly `n` entries, each
an encoded key followed by an encoded value; any other shape is a decode
error (`none`), as is leftover input. -/
def decodeEntries : Nat → List (K ⊕ V) → Option (List (kv K V))
  | 0, [] => some []
  | 0, _ :: _ => none
  | _ + 1, [] => none
  | n + 1, Sum.inl k :: rest =>
    match rest with
    | Sum.inr v :: rest2 =>
      (decodeEntries n rest2).map fun tail => ⟨k, v⟩ :: tail
    | _ => none
  | _ + 1, Sum.inr _ :: _ => none

/-- `Save` of `ss.go`: encode the full current entry sequence, in order,
into one snapshot blob (`encoder.Encode(ss.data)`). -/
def Save (data : List (kv K V)) : GobFile K V :=
  ⟨data.length, encodeEntries data⟩

/-- Decoding a snapshot file. -/
def decodeFile (file : GobFile K V) : Option (List (kv K V)) :=
  decodeEntries file.count file.stream

/-- `Load` of `ss.go`: the source is `none` when the file cannot be opened
(`os.Open` fails), in which case the method returns the error before
touching `ss.data`.  Otherwise `decoder.Decode(&ss.data)` replaces the
entry sequence with the decoded one on success; a decode error is
returned to the caller (`Except.error`). -/
def Load (source : Option (GobFile K V)) :
    Except Unit (List (kv K V)) :=
  match source with
  | none => Except.error ()
  | some file =>
    match decodeFile file with
    | some newData => Except.ok newData
    | none => Except.error ()

/-- One mutating public operation of the library, for stating the
invariant over arbitrary operation sequences.  `set`/`store` and
`remove` are the documented aliases of `add` and `delete`. -/
inductive Op (K V : Type) where
  | add (key : K) (value : V)
  | set (key : K) (value : V)
  | store (key : K) (value : V)
  | delete (key : K)
  | remove (key : K)
  | clear

/-- Effect of one mutating operation on the stored entry sequence. -/
def applyOp [LinearOrder K] [Inhabited V] (data : List (kv K V)) :
    Op K V → List (kv K V)
  | Op.add k v => Add data k v
  | Op.set k v => Set data k v
  | Op.store k v => Store data k v
  | Op.delete k => (Delete data k).1
  | Op.remove k => (Remove data k).1
  | Op.clear => Clear data

/-- The entry sequence reached from the freshly constructed (empty) map
after a sequence of mutating operations. -/
def applyOps [LinearOrder K] [Inhabited V] (ops : List (Op K V)) :
    List (kv K V) :=
  ops.foldl applyOp []

/-- The sortedness invariant of the spec: every entry's key is strictly
below the key of every later entry (in particular adjacent ones). -/
def SortedData [LinearOrder K] (data : List (kv K V)) : Prop :=
  List.Pairwise (fun a b => a.Key < b.Key) data

instance [LinearOrder K] (data : List (kv K V)) :
    Decidable (SortedData data) :=
  inferInstanceAs (Decidable (List.Pairwise _ data))

/-! ## Properties of the binary search -/

/-- Invariant of Go's `sort.Search` loop for a monotone predicate: with
enough fuel, the result `r` lies in `[i, j]`, the predicate is `false`
strictly below `r` (within the interval) and `true` at `r` when `r < j`. -/
theorem searchGo_spec (f : Nat → Bool)
    (mono : ∀ a b, a ≤ b → f a = true → f b = true) :
    ∀ fuel i j, j - i ≤ fuel → i ≤ j →
      i ≤ searchGo f fuel i j ∧ searchGo f fuel i j ≤ j ∧
      (∀ k, i ≤ k → k < searchGo f fuel i j → f k = false) ∧
      (searchGo f fuel i j < j → f (searchGo f fuel i j) = true) := by
  intro fuel
  induction fuel with
  | zero =>
    intro i j hfuel hij
    have hred : searchGo f 0 i j = i := rfl
    rw [hred]
    exact ⟨Nat.le_refl i, hij,
      fun k hk1 hk2 => absurd (Nat.lt_of_le_of_lt hk1 hk2) (Nat.lt_irrefl i),
      fun h => absurd h (by omega)⟩
  | succ n ih =>
    intro i j hfuel hij
    by_cases hlt : i < j
    · have hred : searchGo f (n + 1) i j =
          if f ((i + j) / 2) then searchGo f n i ((i + j) / 2)
          else searchGo f n ((i + j) / 2 + 1) j := by
        simp [searchGo, hlt]
      have hmi : i ≤ (i + j) / 2 := by omega
      have hmj : (i + j) / 2 < j := by omega
      cases hf : f ((i + j) / 2) with
      | true =>
        rw [hred, if_pos hf]
        obtain ⟨h1, h2, h3, h4⟩ := ih i ((i + j) / 2) (by omega) hmi
        refine ⟨h1, by omega, h3, fun _ => ?_⟩
        rcases Nat.lt_or_ge (searchGo f n i ((i + j) / 2)) ((i + j) / 2)
          with hr | hr
        · exact h4 hr
        · have hre : searchGo f n i ((i + j) / 2) = (i + j) / 2 :=
            Nat.le_antisymm h2 hr
          rw [hre]
          exact hf
      | false =>
        have hfne : ¬f ((i + j) / 2) = true := by simp [hf]
        rw [hred, if_neg hfne]
        obtain ⟨h1, h2, h3, h4⟩ := ih ((i + j) / 2 + 1) j (by omega) (by omega)
        refine ⟨by omega, h2, ?_, h4⟩
        intro k hk1 hk2
        by_cases hkm : (i + j) / 2 + 1 ≤ k
        · exact h3 k hkm hk2
        · cases hfk : f k with
          | false => rfl
          | true =>
            have := mono k ((i + j) / 2) (by omega) hfk
            rw [this] at hf
            cases hf
    · have hred : searchGo f (n + 1) i j = i := by simp [searchGo, hlt]
      rw [hred]
      exact ⟨Nat.le_refl i, hij,
        fun k hk1 hk2 => absurd (Nat.lt_of_le_of_lt hk1 hk2) (Nat.lt_irrefl i),
        fun h => absurd h hlt⟩

/-- Specification of `sort.Search(n, f)` for a monotone `f`: the result is
at most `n`, `f` is `false` strictly below it and `true` at it when it is
below `n` — i.e. it is the least index satisfying `f`, or `n` if none. -/
theorem sortSearch_spec (n : Nat) (f : Nat → Bool)
    (mono : ∀ a b, a ≤ b → f a = true → f b = true) :
    sortSearch n f ≤ n ∧ (∀ k, k < sortSearch n f → f k = false) ∧
      (sortSearch n f < n → f (sortSearch n f) = true) := by
  obtain ⟨h1, h2, h3, h4⟩ :=
    searchGo_spec f mono n 0 n (by omega) (Nat.zero_le n)
  exact ⟨h2, fun k hk => h3 k (Nat.zero_le k) hk, h4⟩

/-- On a sorted sequence the search closure is monotone in the index. -/
theorem locPred_mono [LinearOrder K] {data : List (kv K V)}
    (hs : SortedData data) (key : K) :
    ∀ a b, a ≤ b → locPred data key a = true → locPred data key b = true := by
  intro a b hab ha
  by_cases hblen : b < data.length
  · have halen : a < data.length := Nat.lt_of_le_of_lt hab hblen
    unfold locPred at ha ⊢
    rw [List.getElem?_eq_getElem hblen]
    rw [List.getElem?_eq_getElem halen] at ha
    simp only [decide_eq_true_eq] at ha ⊢
    rcases Nat.eq_or_lt_of_le hab with heq | hab'
    · subst heq
      exact ha
    · have hkey : (data[a]).Key < (data[b]).Key :=
        (List.pairwise_iff_getElem.mp hs) a b halen hblen hab'
      exact le_trans ha (le_of_lt hkey)
  · unfold locPred
    rw [List.getElem?_eq_none (by omega)]

/-- Reading the search closure at an in-range index. -/
theorem locPred_true_iff [LinearOrder K] {data : List (kv K V)} {key : K}
    {k : Nat} (hk : k < data.length) :
    locPred data key k = true ↔ key ≤ (data[k]).Key := by
  unfold locPred
  rw [List.getElem?_eq_getElem hk]
  simp

/-- `locate` never exceeds the length of the sequence. -/
theorem locate_le_length [LinearOrder K] {data : List (kv K V)} {key : K}
    (hs : SortedData data) : locate data key ≤ data.length :=
  (sortSearch_spec data.length (locPred data key) (locPred_mono hs key)).1

/-- Every entry strictly before the located index has key `< key`. -/
theorem locate_lt_of_lt [LinearOrder K] {data : List (kv K V)} {key : K}
    (hs : SortedData data) :
    ∀ j (hj : j < data.length), j < locate data key → (data[j]).Key < key := by
  intro j hj hjr
  have hfalse : locPred data key j = false :=
    (sortSearch_spec data.length (locPred data key)
      (locPred_mono hs key)).2.1 j hjr
  refine lt_of_not_le fun hle => ?_
  rw [(locPred_true_iff hj).mpr hle] at hfalse
  cases hfalse

/-- When the located index is in range, the entry there has key `≥ key`. -/
theorem locate_key_le [LinearOrder K] {data : List (kv K V)} {key : K}
    (hs : SortedData data) (hr : locate data key < data.length) :
    key ≤ (data[locate data key]).Key := by
  have htrue : locPred data key (locate data key) = true :=
    (sortSearch_spec data.length (locPred data key)
      (locPred_mono hs key)).2.2 hr
  exact (locPred_true_iff hr).mp htrue

/-! ## Membership, lookup and sortedness lemmas -/

/-- Keys are monotone in the index on a sorted sequence. -/
theorem sorted_key_le_of_le [LinearOrder K] {data : List (kv K V)}
    (hs : SortedData data) {i j : Nat} (hi : i < data.length)
    (hj : j < data.length) (hij : i ≤ j) :
    (data[i]).Key ≤ (data[j]).Key := by
  rcases Nat.eq_or_lt_of_le hij with heq | hlt
  · subst heq
    exact le_refl _
  · exact le_of_lt ((List.pairwise_iff_getElem.mp hs) i j hi hj hlt)

/-- Entries of a sorted sequence are determined by their key. -/
theorem key_unique [LinearOrder K] {data : List (kv K V)}
    (hs : SortedData data) {a b : kv K V}
    (ha : a ∈ data) (hb : b ∈ data) (hk : a.Key = b.Key) : a = b := by
  obtain ⟨i, hi, hia⟩ := List.mem_iff_getElem.mp ha
  obtain ⟨j, hj, hjb⟩ := List.mem_iff_getElem.mp hb
  rcases Nat.lt_trichotomy i j with hij | hij | hij
  · have hlt := (List.pairwise_iff_getElem.mp hs) i j hi hj hij
    rw [hia, hjb, hk] at hlt
    exact absurd hlt (lt_irrefl _)
  · subst hij
    rw [← hia, ← hjb]
  · have hlt := (List.pairwise_iff_getElem.mp hs) j i hj hi hij
    rw [hia, hjb, hk] at hlt
    exact absurd hlt (lt_irrefl _)

/-- `Exist` in terms of the located index: exactly the membership test
`index < len && data[index].Key == key` of the source. -/
theorem exist_eq_true_iff [LinearOrder K] {data : List (kv K V)} {key : K} :
    Exist data key = true ↔
      ∃ h : locate data key < data.length,
        (data[locate data key]).Key = key := by
  unfold Exist
  cases hoc : data[locate data key]? with
  | none =>
    rw [List.getElem?_eq_none_iff] at hoc
    simp only [Bool.false_eq_true, false_iff]
    rintro ⟨h, -⟩
    omega
  | some e =>
    obtain ⟨hlt, hval⟩ := List.getElem?_eq_some_iff.mp hoc
    simp only [decide_eq_true_eq]
    constructor
    · intro hkey
      exact ⟨hlt, by rw [hval, hkey]⟩
    · rintro ⟨h, hkey⟩
      rw [← hval]
      exact hkey

/-- The found flag of `Get` is exactly `Exist` (same search, same test). -/
theorem get_snd_eq_exist [LinearOrder K] [Inhabited V]
    (data : List (kv K V)) (key : K) :
    (Get data key).2 = Exist data key := by
  unfold Get Exist
  cases data[locate data key]? with
  | none => rfl
  | some e =>
    by_cases he : e.Key = key <;> simp [he]

/-- `Exist` only reports keys that are genuinely stored (no sortedness
needed). -/
theorem mem_keys_of_exist [LinearOrder K] {data : List (kv K V)} {key : K}
    (h : Exist data key = true) : key ∈ data.map kv.Key := by
  rw [exist_eq_true_iff] at h
  obtain ⟨hlt, hkey⟩ := h
  rw [← hkey]
  exact List.mem_map_of_mem _ (List.getElem_mem hlt)

/-- On a sorted sequence, `Exist` agrees with membership of the key. -/
theorem exist_iff_mem [LinearOrder K] {data : List (kv K V)} {key : K}
    (hs : SortedData data) :
    Exist data key = true ↔ key ∈ data.map kv.Key := by
  constructor
  · exact mem_keys_of_exist
  · intro hmem
    obtain ⟨e, hedata, hekey⟩ := List.mem_map.mp hmem
    obtain ⟨j, hj, hje⟩ := List.mem_iff_getElem.mp hedata
    have hrj : locate data key ≤ j := by
      by_contra hcon
      push_neg at hcon
      have hjlt := locate_lt_of_lt hs j hj hcon
      rw [hje, hekey] at hjlt
      exact absurd hjlt (lt_irrefl key)
    have hrlen : locate data key < data.length := Nat.lt_of_le_of_lt hrj hj
    rw [exist_eq_true_iff]
    refine ⟨hrlen, ?_⟩
    have h1 : key ≤ (data[locate data key]).Key := locate_key_le hs hrlen
    have h2 : (data[locate data key]).Key ≤ key := by
      have hmono := sorted_key_le_of_le hs hrlen hj hrj
      rw [hje, hekey] at hmono
      exact hmono
    exact le_antisymm h2 h1

/-- On a sorted sequence, looking up a stored entry's key returns its
value. -/
theorem get_eq_of_mem [LinearOrder K] [Inhabited V] {data : List (kv K V)}
    {key : K} {v : V} (hs : SortedData data)
    (hm : (⟨key, v⟩ : kv K V) ∈ data) : Get data key = (v, true) := by
  have hex : Exist data key = true :=
    (exist_iff_mem hs).mpr (by simpa using List.mem_map_of_mem kv.Key hm)
  rw [exist_eq_true_iff] at hex
  obtain ⟨hlt, hkey⟩ := hex
  have hentry : data[locate data key] = ⟨key, v⟩ :=
    key_unique hs (List.getElem_mem hlt) hm hkey
  unfold Get
  rw [List.getElem?_eq_getElem hlt, hentry]
  simp

/-- Looking up an absent key returns the zero value and `false` (no
sortedness needed). -/
theorem get_eq_default_of_not_mem [LinearOrder K] [Inhabited V]
    {data : List (kv K V)} {key : K} (hm : key ∉ data.map kv.Key) :
    Get data key = (default, false) := by
  unfold Get
  cases hoc : data[locate data key]? with
  | none => rfl
  | some e =>
    obtain ⟨hlt, hval⟩ := List.getElem?_eq_some_iff.mp hoc
    have hne : e.Key ≠ key := by
      intro heq
      apply hm
      rw [← heq, ← hval]
      exact List.mem_map_of_mem _ (List.getElem_mem hlt)
    simp [hne]

/-- Splitting a sequence at an in-range index. -/
theorem take_getElem_drop (l : List (kv K V)) (r : Nat) (h : r < l.length) :
    l = l.take r ++ (l[r]) :: l.drop (r + 1) := by
  conv_lhs => rw [← List.take_append_drop r l]
  rw [List.drop_eq_getElem_cons h]

/-- Every entry in the prefix before the located index has key `< key`. -/
theorem take_key_lt [LinearOrder K] {data : List (kv K V)} {key : K}
    (hs : SortedData data) :
    ∀ a ∈ data.take (locate data key), a.Key < key := by
  intro a ha
  obtain ⟨i, hi, hia⟩ := List.mem_iff_getElem.mp ha
  have hbounds : i < locate data key ∧ i < data.length := by
    rw [List.length_take] at hi
    omega
  have hkey := locate_lt_of_lt hs i hbounds.2 hbounds.1
  rw [← hia, List.getElem_take]
  exact hkey

/-- Every entry from the located index on has key `≥ key`. -/
theorem drop_key_ge [LinearOrder K] {data : List (kv K V)} {key : K}
    (hs : SortedData data) :
    ∀ a ∈ data.drop (locate data key), key ≤ a.Key := by
  intro a ha
  obtain ⟨i, hi, hia⟩ := List.mem_iff_getElem.mp ha
  have hlen : locate data key + i < data.length := by
    rw [List.length_drop] at hi
    omega
  have hrlen : locate data key < data.length := by omega
  rw [← hia, List.getElem_drop]
  calc key ≤ (data[locate data key]).Key := locate_key_le hs hrlen
    _ ≤ (data[locate data key + i]).Key :=
      sorted_key_le_of_le hs hrlen hlen (Nat.le_add_right _ _)

/-- When the located entry's key equals `key`, all strictly later entries
have keys `> key`. -/
theorem drop_succ_key_gt [LinearOrder K] {data : List (kv K V)} {key : K}
    (hs : SortedData data) (hr : locate data key < data.length)
    (hkey : (data[locate data key]).Key = key) :
    ∀ a ∈ data.drop (locate data key + 1), key < a.Key := by
  intro a ha
  obtain ⟨i, hi, hia⟩ := List.mem_iff_getElem.mp ha
  have hlen : locate data key + 1 + i < data.length := by
    rw [List.length_drop] at hi
    omega
  rw [← hia, List.getElem_drop]
  have hlt := (List.pairwise_iff_getElem.mp hs) (locate data key)
    (locate data key + 1 + i) hr hlen (by omega)
  rw [hkey] at hlt
  exact hlt

/-- When the key is absent, all entries from the located index on have
keys `> key`. -/
theorem drop_key_gt_of_not_mem [LinearOrder K] {data : List (kv K V)}
    {key : K} (hs : SortedData data) (hm : key ∉ data.map kv.Key) :
    ∀ a ∈ data.drop (locate data key), key < a.Key := by
  intro a ha
  have hge := drop_key_ge hs a ha
  have hne : a.Key ≠ key := by
    intro heq
    apply hm
    rw [← heq]
    exact List.mem_map_of_mem kv.Key (List.mem_of_mem_drop ha)
  exact lt_of_le_of_ne hge fun h => hne h.symm

/-- Sortedness of a split with a pivot strictly between the two sides. -/
theorem sorted_insert_middle [LinearOrder K] {data : List (kv K V)}
    (hs : SortedData data) {x : kv K V} {r s : Nat}
    (hlo : ∀ a ∈ data.take r, a.Key < x.Key)
    (hhi : ∀ b ∈ data.drop s, x.Key < b.Key) :
    SortedData (data.take r ++ x :: data.drop s) := by
  unfold SortedData at *
  rw [List.pairwise_append]
  refine ⟨hs.sublist (List.take_sublist r data), ?_, ?_⟩
  · rw [List.pairwise_cons]
    exact ⟨hhi, hs.sublist (List.drop_sublist s data)⟩
  · intro a ha b hb
    rw [List.mem_cons] at hb
    rcases hb with rfl | hb
    · exact hlo a ha
    · exact lt_trans (hlo a ha) (hhi b hb)

/-- `Add` preserves the sortedness invariant. -/
theorem add_sorted [LinearOrder K] {data : List (kv K V)} {key : K} {v : V}
    (hs : SortedData data) : SortedData (Add data key v) := by
  unfold Add
  cases hoc : data[locate data key]? with
  | none =>
    have hlen : data.length ≤ locate data key :=
      List.getElem?_eq_none_iff.mp hoc
    refine sorted_insert_middle hs (take_key_lt hs) ?_
    intro b hb
    rw [List.drop_eq_nil_of_le hlen] at hb
    cases hb
  | some e =>
    obtain ⟨hlt, hval⟩ := List.getElem?_eq_some_iff.mp hoc
    show SortedData
      (if e.Key = key then data.set (locate data key) ⟨e.Key, v⟩
       else data.take (locate data key) ++
         ⟨key, v⟩ :: data.drop (locate data key))
    by_cases he : e.Key = key
    · rw [if_pos he, List.set_eq_take_append_cons_drop, if_pos hlt]
      have hkey : (data[locate data key]).Key = key := by rw [hval, he]
      refine sorted_insert_middle hs ?_ ?_
      · intro a ha
        have := take_key_lt hs a ha
        show a.Key < e.Key
        rw [he]
        exact this
      · intro b hb
        have := drop_succ_key_gt hs hlt hkey b hb
        show e.Key < b.Key
        rw [he]
        exact this
    · rw [if_neg he]
      have hnm : key ∉ data.map kv.Key := by
        intro hmem
        obtain ⟨hr, hkey⟩ := exist_eq_true_iff.mp ((exist_iff_mem hs).mpr hmem)
        rw [hval] at hkey
        exact he hkey
      exact sorted_insert_middle hs (take_key_lt hs)
        (drop_key_gt_of_not_mem hs hnm)

/-- `Delete` preserves the sortedness invariant. -/
theorem delete_sorted [LinearOrder K] [Inhabited V] {data : List (kv K V)}
    {key : K} (hs : SortedData data) : SortedData (Delete data key).1 := by
  unfold Delete
  cases hoc : data[locate data key]? with
  | none => exact hs
  | some e =>
    obtain ⟨hlt, hval⟩ := List.getElem?_eq_some_iff.mp hoc
    show SortedData
      (if e.Key = key then
        (data.take (locate data key) ++ data.drop (locate data key + 1),
         e.Value, true)
       else (data, default, false)).1
    by_cases he : e.Key = key
    · rw [if_pos he]
      show SortedData
        (data.take (locate data key) ++ data.drop (locate data key + 1))
      have hsub : List.Sublist
          (data.take (locate data key) ++ data.drop (locate data key + 1))
          data := by
        conv_rhs => rw [take_getElem_drop data (locate data key) hlt]
        exact (List.sublist_cons_self _ _).append_left _
      exact List.Pairwise.sublist hsub hs
    · rw [if_neg he]
      exact hs

/-- Every mutating operation preserves the sortedness invariant. -/
theorem applyOp_sorted [LinearOrder K] [Inhabited V] {data : List (kv K V)}
    (hs : SortedData data) (op : Op K V) : SortedData (applyOp data op) := by
  cases op with
  | add k v => exact add_sorted hs
  | set k v => exact add_sorted hs
  | store k v => exact add_sorted hs
  | delete k => exact delete_sorted hs
  | remove k => exact delete_sorted hs
  | clear => exact List.Pairwise.nil

/-- Folding mutating operations from any sorted state stays sorted. -/
theorem foldl_applyOp_sorted [LinearOrder K] [Inhabited V]
    (ops : List (Op K V)) :
    ∀ data : List (kv K V), SortedData data →
      SortedData (ops.foldl applyOp data) := by
  induction ops with
  | nil => exact fun data hs => hs
  | cons op rest ih =>
    intro data hs
    exact ih (applyOp data op) (applyOp_sorted hs op)

/-- The state reached from the empty map is always sorted. -/
theorem applyOps_sorted [LinearOrder K] [Inhabited V]
    (ops : List (Op K V)) : SortedData (applyOps ops) :=
  foldl_applyOp_sorted ops [] List.Pairwise.nil

/-! ## Shapes of `Add`, `Get` and `Delete` -/

/-- On a sorted sequence, looking up the key of a stored entry returns
that entry's value. -/
theorem get_entry [LinearOrder K] [Inhabited V] {data : List (kv K V)}
    {key : K} {e : kv K V} (hs : SortedData data) (hm : e ∈ data)
    (hek : e.Key = key) : Get data key = (e.Value, true) := by
  have hex : Exist data key = true :=
    (exist_iff_mem hs).mpr (by rw [← hek]; exact List.mem_map_of_mem _ hm)
  rw [exist_eq_true_iff] at hex
  obtain ⟨hlt, hkey⟩ := hex
  have hentry : data[locate data key] = e :=
    key_unique hs (List.getElem_mem hlt) hm (by rw [hkey, hek])
  unfold Get
  rw [List.getElem?_eq_getElem hlt, hentry]
  simp [hek]

/-- In the overwrite branch (`key` present), `Add` writes the entry in
place at the located index. -/
theorem add_eq_set_of_mem [LinearOrder K] {data : List (kv K V)} {key : K}
    {v : V} (hs : SortedData data) (hmem : key ∈ data.map kv.Key) :
    Add data key v = data.set (locate data key) ⟨key, v⟩ := by
  obtain ⟨hlt, hkey⟩ := exist_eq_true_iff.mp ((exist_iff_mem hs).mpr hmem)
  unfold Add
  rw [List.getElem?_eq_getElem hlt]
  show (if (data[locate data key]).Key = key then
      data.set (locate data key) ⟨(data[locate data key]).Key, v⟩
    else data.take (locate data key) ++
      ⟨key, v⟩ :: data.drop (locate data key)) =
    data.set (locate data key) ⟨key, v⟩
  rw [if_pos hkey, hkey]

/-- In the insert branch (`key` absent), `Add` inserts at the located
index. -/
theorem add_eq_insert_of_not_mem [LinearOrder K] {data : List (kv K V)}
    {key : K} {v : V} (hmem : key ∉ data.map kv.Key) :
    Add data key v =
      data.take (locate data key) ++
        ⟨key, v⟩ :: data.drop (locate data key) := by
  unfold Add
  cases hoc : data[locate data key]? with
  | none => rfl
  | some e =>
    obtain ⟨hlt, hval⟩ := List.getElem?_eq_some_iff.mp hoc
    have he : ¬e.Key = key := by
      intro h
      apply hmem
      rw [← h, ← hval]
      exact List.mem_map_of_mem _ (List.getElem_mem hlt)
    show (if e.Key = key then
        data.set (locate data key) ⟨e.Key, v⟩
      else data.take (locate data key) ++
        ⟨key, v⟩ :: data.drop (locate data key)) = _
    rw [if_neg he]

/-- Overwriting an existing key's value leaves the key sequence
unchanged. -/
theorem add_keys_of_mem [LinearOrder K] {data : List (kv K V)} {key : K}
    {v : V} (hs : SortedData data) (hmem : key ∈ data.map kv.Key) :
    (Add data key v).map kv.Key = data.map kv.Key := by
  obtain ⟨hlt, hkey⟩ := exist_eq_true_iff.mp ((exist_iff_mem hs).mpr hmem)
  rw [add_eq_set_of_mem hs hmem, List.set_eq_take_append_cons_drop,
    if_pos hlt]
  conv_rhs => rw [take_getElem_drop data (locate data key) hlt]
  rw [List.map_append, List.map_append, List.map_cons, List.map_cons, hkey]

/-- Overwriting an existing key's value leaves the size unchanged. -/
theorem add_length_of_mem [LinearOrder K] {data : List (kv K V)} {key : K}
    {v : V} (hs : SortedData data) (hmem : key ∈ data.map kv.Key) :
    (Add data key v).length = data.length := by
  rw [add_eq_set_of_mem hs hmem]
  exact List.length_set data _ _

/-- Inserting an absent key grows the size by exactly one. -/
theorem add_length_of_not_mem [LinearOrder K] {data : List (kv K V)}
    {key : K} {v : V} (hs : SortedData data)
    (hmem : key ∉ data.map kv.Key) :
    (Add data key v).length = data.length + 1 := by
  rw [add_eq_insert_of_not_mem hmem, List.length_append, List.length_cons,
    List.length_take, List.length_drop]
  have hloc : locate data key ≤ data.length := locate_le_length hs
  omega

/-- The freshly written entry is stored after `Add`. -/
theorem mem_add_self [LinearOrder K] {data : List (kv K V)} {key : K}
    {v : V} (hs : SortedData data) :
    (⟨key, v⟩ : kv K V) ∈ Add data key v := by
  by_cases hmem : key ∈ data.map kv.Key
  · obtain ⟨hlt, hkey⟩ := exist_eq_true_iff.mp ((exist_iff_mem hs).mpr hmem)
    rw [add_eq_set_of_mem hs hmem, List.set_eq_take_append_cons_drop,
      if_pos hlt]
    exact List.mem_append_right _ (List.mem_cons_self _ _)
  · rw [add_eq_insert_of_not_mem hmem]
    exact List.mem_append_right _ (List.mem_cons_self _ _)

/-- `Get` at the located index after a hit. -/
theorem get_eq_of_hit [LinearOrder K] [Inhabited V] {data : List (kv K V)}
    {key : K} (hlt : locate data key < data.length)
    (hkey : (data[locate data key]).Key = key) :
    Get data key = ((data[locate data key]).Value, true) := by
  unfold Get
  rw [List.getElem?_eq_getElem hlt]
  show (if (data[locate data key]).Key = key then
      ((data[locate data key]).Value, true) else (default, false)) = _
  rw [if_pos hkey]

/-- `Delete` on a hit: removal at the located index. -/
theorem delete_eq_of_hit [LinearOrder K] [Inhabited V]
    {data : List (kv K V)} {key : K}
    (hlt : locate data key < data.length)
    (hkey : (data[locate data key]).Key = key) :
    Delete data key =
      (data.take (locate data key) ++ data.drop (locate data key + 1),
       (data[locate data key]).Value, true) := by
  unfold Delete
  rw [List.getElem?_eq_getElem hlt]
  show (if (data[locate data key]).Key = key then
      (data.take (locate data key) ++ data.drop (locate data key + 1),
       (data[locate data key]).Value, true)
    else (data, default, false)) = _
  rw [if_pos hkey]

/-- `Delete` on a miss returns the zero value, `false` and an unchanged
sequence. -/
theorem delete_eq_of_not_exist [LinearOrder K] [Inhabited V]
    {data : List (kv K V)} {key : K} (hex : Exist data key = false) :
    Delete data key = (data, default, false) := by
  unfold Exist at hex
  unfold Delete
  cases hoc : data[locate data key]? with
  | none => rfl
  | some e =>
    rw [hoc] at hex
    simp only [decide_eq_false_iff_not] at hex
    show (if e.Key = key then
        (data.take (locate data key) ++ data.drop (locate data key + 1),
         e.Value, true)
      else (data, default, false)) = _
    rw [if_neg hex]

/-- Inversion of a successful `Delete`. -/
theorem delete_inv [LinearOrder K] [Inhabited V] {data : List (kv K V)}
    {key : K} {rest : List (kv K V)} {val : V}
    (h : Delete data key = (rest, val, true)) :
    ∃ hlt : locate data key < data.length,
      (data[locate data key]).Key = key ∧
      rest = data.take (locate data key) ++
        data.drop (locate data key + 1) ∧
      val = (data[locate data key]).Value := by
  cases hcase : Exist data key with
  | false =>
    rw [delete_eq_of_not_exist hcase] at h
    simp at h
  | true =>
    obtain ⟨hlt, hkey⟩ := exist_eq_true_iff.mp hcase
    rw [delete_eq_of_hit hlt hkey] at h
    simp only [Prod.mk.injEq] at h
    exact ⟨hlt, hkey, h.1.symm, h.2.1.symm⟩

/-- After removing the entry at the located index of a hit, the key is
gone from the key sequence. -/
theorem key_not_mem_take_drop [LinearOrder K] {data : List (kv K V)}
    {key : K} (hs : SortedData data)
    (hlt : locate data key < data.length)
    (hkey : (data[locate data key]).Key = key) :
    key ∉ (data.take (locate data key) ++
      data.drop (locate data key + 1)).map kv.Key := by
  intro hmem
  rw [List.map_append, List.mem_append] at hmem
  rcases hmem with hmem | hmem
  · obtain ⟨a, ha, hak⟩ := List.mem_map.mp hmem
    have halt := take_key_lt hs a ha
    rw [hak] at halt
    exact absurd halt (lt_irrefl key)
  · obtain ⟨a, ha, hak⟩ := List.mem_map.mp hmem
    have hagt := drop_succ_key_gt hs hlt hkey a ha
    rw [hak] at hagt
    exact absurd hagt (lt_irrefl key)

/-! ## Frame lemmas: entries under other keys are untouched -/

/-- `Add` leaves the entries whose key differs from the written key
untouched, order included. -/
theorem add_filter_frame [LinearOrder K] {data : List (kv K V)} {key : K}
    {v : V} :
    (Add data key v).filter (fun e => decide (e.Key ≠ key)) =
      data.filter (fun e => decide (e.Key ≠ key)) := by
  unfold Add
  cases hoc : data[locate data key]? with
  | none =>
    rw [List.filter_append, List.filter_cons_of_neg (by simp),
      ← List.filter_append, List.take_append_drop]
  | some e =>
    obtain ⟨hlt, hval⟩ := List.getElem?_eq_some_iff.mp hoc
    show List.filter _ (if e.Key = key then
        data.set (locate data key) ⟨e.Key, v⟩
      else data.take (locate data key) ++
        ⟨key, v⟩ :: data.drop (locate data key)) = _
    by_cases he : e.Key = key
    · rw [if_pos he, List.set_eq_take_append_cons_drop, if_pos hlt]
      conv_rhs => rw [take_getElem_drop data (locate data key) hlt]
      rw [List.filter_append, List.filter_append,
        List.filter_cons_of_neg (by simp [he]),
        List.filter_cons_of_neg (by simp [hval, he])]
    · rw [if_neg he, List.filter_append,
        List.filter_cons_of_neg (by simp),
        ← List.filter_append, List.take_append_drop]

/-- `Delete` leaves the entries whose key differs from the deleted key
untouched, order included. -/
theorem delete_filter_frame [LinearOrder K] [Inhabited V]
    {data : List (kv K V)} {key : K} :
    ((Delete data key).1).filter (fun e => decide (e.Key ≠ key)) =
      data.filter (fun e => decide (e.Key ≠ key)) := by
  unfold Delete
  cases hoc : data[locate data key]? with
  | none => rfl
  | some e =>
    obtain ⟨hlt, hval⟩ := List.getElem?_eq_some_iff.mp hoc
    show List.filter _ (if e.Key = key then
        (data.take (locate data key) ++ data.drop (locate data key + 1),
         e.Value, true)
      else (data, default, false)).1 = _
    by_cases he : e.Key = key
    · rw [if_pos he]
      show List.filter _
        (data.take (locate data key) ++ data.drop (locate data key + 1)) = _
      conv_rhs => rw [take_getElem_drop data (locate data key) hlt]
      rw [List.filter_append, List.filter_append,
        List.filter_cons_of_neg (by simp [hval, he])]
    · rw [if_neg he]

/-- Lookups of a key different from the mutated one are insensitive to any
mutation that preserves the other-key entries. -/
theorem get_frame_of_filter_eq [LinearOrder K] [Inhabited V]
    {data data2 : List (kv K V)} {k k2 : K} (hs : SortedData data)
    (hs2 : SortedData data2) (hne : k2 ≠ k)
    (hfil : data2.filter (fun e => decide (e.Key ≠ k)) =
      data.filter (fun e => decide (e.Key ≠ k))) :
    Get data2 k2 = Get data k2 := by
  by_cases hmem : k2 ∈ data.map kv.Key
  · obtain ⟨e, he, hek⟩ := List.mem_map.mp hmem
    have hef : e ∈ data.filter (fun e => decide (e.Key ≠ k)) :=
      List.mem_filter.mpr ⟨he, by simp [hek, hne]⟩
    rw [← hfil] at hef
    have he2 : e ∈ data2 := (List.mem_filter.mp hef).1
    rw [get_entry hs he hek, get_entry hs2 he2 hek]
  · have hmem2 : k2 ∉ data2.map kv.Key := by
      intro hmem2
      obtain ⟨e, he, hek⟩ := List.mem_map.mp hmem2
      have hef : e ∈ data2.filter (fun e => decide (e.Key ≠ k)) :=
        List.mem_filter.mpr ⟨he, by simp [hek, hne]⟩
      rw [hfil] at hef
      apply hmem
      rw [← hek]
      exact List.mem_map_of_mem _ (List.mem_filter.mp hef).1
    rw [get_eq_default_of_not_mem hmem, get_eq_default_of_not_mem hmem2]

/-! ## Ranging and the snapshot codec -/

/-- Closed form of the forward visit trace: the prefix up to and
including the first entry on which `f` returns `false`. -/
theorem range_eq_take (f : K → V → Bool) (data : List (kv K V)) :
    Range f data =
      data.take ((data.takeWhile fun e => f e.Key e.Value).length + 1) := by
  induction data with
  | nil => rfl
  | cons e rest ih =>
    by_cases hf : f e.Key e.Value
    · rw [show Range f (e :: rest) = e :: Range f rest by simp [Range, hf],
        List.takeWhile_cons]
      simp only [hf, if_true, List.length_cons, List.take_succ_cons, ih]
    · rw [show Range f (e :: rest) = [e] by simp [Range, hf],
        List.takeWhile_cons]
      simp [hf]

/-- Decoding a snapshot produced by the encoder recovers the entry
sequence exactly. -/
theorem decodeEntries_encodeEntries (data : List (kv K V)) :
    decodeEntries data.length (encodeEntries data) = some data := by
  induction data with
  | nil => rfl
  | cons e rest ih =>
    show decodeEntries (rest.length + 1)
      (Sum.inl e.Key :: Sum.inr e.Value :: encodeEntries rest) = _
    simp [decodeEntries, ih]

/-! ## The claims -/

/-- C1: starting from the empty map, after every sequence of insert
(`Add`/`Set`/`Store`), delete (`Delete`/`Remove`) and `Clear` operations,
the stored entry sequence is strictly ascending by key — adjacent entries
satisfy `entries[i].key < entries[i+1].key` — and hence holds no
duplicate keys. -/
theorem c1_sortedness_invariant [LinearOrder K] [Inhabited V]
    (ops : List (Op K V)) :
    SortedData (applyOps ops) ∧
    (∀ i (h : i + 1 < (applyOps ops).length),
      ((applyOps ops)[i]).Key < ((applyOps ops)[i + 1]).Key) ∧
    ((applyOps ops).map kv.Key).Nodup := by
  have hs := applyOps_sorted ops
  refine ⟨hs, ?_, ?_⟩
  · intro i h
    exact (List.pairwise_iff_getElem.mp hs) i (i + 1) (by omega) h (by omega)
  · exact List.Pairwise.imp (fun hab => ne_of_lt hab)
      (List.pairwise_map.mpr hs)

/-- Witness for C1 at the operation sequence
`Add 3 30; Add 1 10; Set 2 20; Remove 3`. -/
theorem c1_witness :
    SortedData (applyOps
      ([Op.add 3 30, Op.add 1 10, Op.set 2 20, Op.remove 3]
        : List (Op Nat Nat))) ∧
    ((applyOps ([Op.add 3 30, Op.add 1 10, Op.set 2 20, Op.remove 3]
        : List (Op Nat Nat))).get ⟨0, by decide⟩).Key <
      ((applyOps ([Op.add 3 30, Op.add 1 10, Op.set 2 20, Op.remove 3]
        : List (Op Nat Nat))).get ⟨1, by decide⟩).Key :=
  ⟨(c1_sortedness_invariant _).1,
    (c1_sortedness_invariant _).2.1 0 (by decide)⟩

/-- C2: insert-or-update semantics of `Add`.  On a sorted state: a present
key is overwritten in place (the entry sequence is a point update, the key
sequence and the size are unchanged); an absent key is spliced in at the
insertion point with all entries at or after it shifted right, growing
the size by one; and inserting the same key twice keeps the size of the
once-inserted state and a subsequent lookup returns the latest value. -/
theorem c2_add_insert_or_update [LinearOrder K] [Inhabited V]
    (data : List (kv K V)) (key : K) (v : V) (hs : SortedData data) :
    (key ∈ data.map kv.Key →
      Add data key v = data.set (locate data key) ⟨key, v⟩ ∧
      (Add data key v).length = data.length ∧
      (Add data key v).map kv.Key = data.map kv.Key) ∧
    (key ∉ data.map kv.Key →
      Add data key v =
        data.take (locate data key) ++
          ⟨key, v⟩ :: data.drop (locate data key) ∧
      (Add data key v).length = data.length + 1) ∧
    (∀ v2 : V,
      (Add (Add data key v) key v2).length = (Add data key v).length ∧
      Get (Add (Add data key v) key v2) key = (v2, true)) := by
  refine ⟨fun hmem => ⟨add_eq_set_of_mem hs hmem,
      add_length_of_mem hs hmem, add_keys_of_mem hs hmem⟩,
    fun hmem => ⟨add_eq_insert_of_not_mem hmem,
      add_length_of_not_mem hs hmem⟩,
    fun v2 => ⟨?_, ?_⟩⟩
  · have hmem1 : key ∈ (Add data key v).map kv.Key :=
      List.mem_map_of_mem kv.Key (mem_add_self hs)
    exact add_length_of_mem (add_sorted hs) hmem1
  · exact get_entry (add_sorted (add_sorted hs))
      (mem_add_self (add_sorted hs)) rfl

/-- Witness for C2: on `[(1,10), (3,30)]`, inserting key 2 twice and
looking it up returns the latest value. -/
theorem c2_witness :
    Get (Add (Add ([⟨1, 10⟩, ⟨3, 30⟩] : List (kv Nat Nat)) 2 5) 2 7) 2 =
      (7, true) :=
  ((c2_add_insert_or_update [⟨1, 10⟩, ⟨3, 30⟩] 2 5 (by decide)).2.2 7).2

/-- C3: on a sorted state the binary search used by `Add`, `Get`, `Exist`
and `Delete` returns the smallest index whose entry has key `≥ key` (all
earlier entries have keys `< key`, the entry at the index — when in
range — has key `≥ key`), or the length if no such index exists; and the
membership test holds exactly when the index is in range and the entry
there has key `= key`. -/
theorem c3_locate_spec [LinearOrder K] (data : List (kv K V)) (key : K)
    (hs : SortedData data) :
    locate data key ≤ data.length ∧
    (∀ j (hj : j < data.length), j < locate data key →
      (data[j]).Key < key) ∧
    (∀ hr : locate data key < data.length,
      key ≤ (data[locate data key]).Key) ∧
    (Exist data key = true ↔
      ∃ h : locate data key < data.length,
        (data[locate data key]).Key = key) :=
  ⟨locate_le_length hs, locate_lt_of_lt hs, fun hr => locate_key_le hs hr,
    exist_eq_true_iff⟩

/-- Witness for C3 at `[(1,10), (3,30)]`, key 2. -/
theorem c3_witness :
    locate ([⟨1, 10⟩, ⟨3, 30⟩] : List (kv Nat Nat)) 2 ≤ 2 :=
  (c3_locate_spec [⟨1, 10⟩, ⟨3, 30⟩] 2 (by decide)).1

/-- C4: the found flag of `Get` equals `Exist`; on an absent key `Get`
and `Delete` return the zero value and `false` (and `Delete` leaves the
sequence unchanged); and a successful `Delete` returns exactly the value
that was stored, after which the key no longer exists and the size has
dropped by one. -/
theorem c4_lookup_delete_agreement [LinearOrder K] [Inhabited V]
    (data : List (kv K V)) (key : K) (hs : SortedData data) :
    (Get data key).2 = Exist data key ∧
    (Exist data key = false →
      Get data key = (default, false) ∧
      Delete data key = (data, default, false)) ∧
    (∀ rest val, Delete data key = (rest, val, true) →
      Get data key = (val, true) ∧ Exist rest key = false ∧
      rest.length + 1 = data.length) := by
  refine ⟨get_snd_eq_exist data key, fun hex => ⟨?_, delete_eq_of_not_exist hex⟩, ?_⟩
  · unfold Exist at hex
    unfold Get
    cases hoc : data[locate data key]? with
    | none => rfl
    | some e =>
      rw [hoc] at hex
      simp only [decide_eq_false_iff_not] at hex
      simp [hex]
  · intro rest val h
    obtain ⟨hlt, hkey, hrest, hval⟩ := delete_inv h
    refine ⟨?_, ?_, ?_⟩
    · rw [get_eq_of_hit hlt hkey, hval]
    · cases hcase : Exist rest key with
      | false => rfl
      | true =>
        have hmem := mem_keys_of_exist hcase
        rw [hrest] at hmem
        exact absurd hmem (key_not_mem_take_drop hs hlt hkey)
    · rw [hrest, List.length_append, List.length_take, List.length_drop]
      omega

/-- Witness for C4: deleting key 3 from `[(1,10), (3,30)]`. -/
theorem c4_witness :
    Get ([⟨1, 10⟩, ⟨3, 30⟩] : List (kv Nat Nat)) 3 = (30, true) ∧
    Exist ([⟨1, 10⟩] : List (kv Nat Nat)) 3 = false ∧
    ([⟨1, 10⟩] : List (kv Nat Nat)).length + 1 =
      ([⟨1, 10⟩, ⟨3, 30⟩] : List (kv Nat Nat)).length :=
  (c4_lookup_delete_agreement [⟨1, 10⟩, ⟨3, 30⟩] 3 (by decide)).2.2
    [⟨1, 10⟩] 30 (by decide)

/-- C5: saving a map and loading the snapshot into a fresh map reproduces
a map of equal size with identical key/value pairs in identical order. -/
theorem c5_save_load_round_trip (data : List (kv K V)) :
    Load (some (Save data)) = Except.ok data ∧
    (Save data).count = data.length := by
  constructor
  · show (match decodeFile (Save data) with
      | some newData => Except.ok newData
      | none => Except.error ()) = Except.ok data
    rw [show decodeFile (Save data) = some data from
      decodeEntries_encodeEntries data]
  · rfl

/-- C7: `Range` visits a prefix of the (ascending) entry sequence and
`RangeBackward` a prefix of the reversed (descending) sequence, each
stopping right after the first entry on which the visit function returns
`false`; when the visit function returns `true` on the first `N` entries
and `false` on the next one, exactly `N + 1` entries are visited, and
when it never returns `false` the whole sequence is visited. -/
theorem c7_range_order_early_exit [LinearOrder K] (data : List (kv K V))
    (f : K → V → Bool) (hs : SortedData data) :
    Range f data =
      data.take ((data.takeWhile fun e => f e.Key e.Value).length + 1) ∧
    RangeBackward f data =
      data.reverse.take
        ((data.reverse.takeWhile fun e => f e.Key e.Value).length + 1) ∧
    SortedData (Range f data) ∧
    List.Pairwise (fun a b : kv K V => b.Key < a.Key)
      (RangeBackward f data) ∧
    (∀ N, (data.takeWhile fun e => f e.Key e.Value).length = N →
      N < data.length → (Range f data).length = N + 1) ∧
    (∀ N, (data.reverse.takeWhile fun e => f e.Key e.Value).length = N →
      N < data.length → (RangeBackward f data).length = N + 1) ∧
    ((∀ e ∈ data, f e.Key e.Value = true) →
      Range f data = data ∧ RangeBackward f data = data.reverse) := by
  have hb : RangeBackward f data = Range f data.reverse := rfl
  refine ⟨range_eq_take f data, ?_, ?_, ?_, ?_, ?_, ?_⟩
  · rw [hb, range_eq_take f data.reverse]
  · rw [range_eq_take]
    exact hs.sublist (List.take_sublist _ _)
  · rw [hb, range_eq_take]
    exact (List.pairwise_reverse.mpr hs).sublist (List.take_sublist _ _)
  · intro N htw hlt
    rw [range_eq_take, List.length_take, htw]
    omega
  · intro N htw hlt
    rw [hb, range_eq_take, List.length_take, htw, List.length_reverse]
    omega
  · intro hall
    constructor
    · rw [range_eq_take,
        show (data.takeWhile fun e => f e.Key e.Value) = data from
          List.takeWhile_eq_self_iff.mpr (fun x hx => hall x hx)]
      exact List.take_of_length_le (by omega)
    · rw [hb, range_eq_take,
        show (data.reverse.takeWhile fun e => f e.Key e.Value) =
            data.reverse from
          List.takeWhile_eq_self_iff.mpr
            (fun x hx => hall x (List.mem_reverse.mp hx))]
      exact List.take_of_length_le (by omega)

/-- Witness for C7: on `[(1,10), (2,20)]` with a visit function accepting
only keys `≤ 1`, exactly two entries are visited. -/
theorem c7_witness :
    (Range (fun k _ => decide (k ≤ 1))
      ([⟨1, 10⟩, ⟨2, 20⟩] : List (kv Nat Nat))).length = 1 + 1 :=
  (c7_range_order_early_exit [⟨1, 10⟩, ⟨2, 20⟩] (fun k _ => decide (k ≤ 1))
    (by decide)).2.2.2.2.1 1 (by decide) (by decide)

/-- C8: on the empty map all extremal accessors return the zero
value/key, never failing; on a non-empty map they return the value/key of
the entry at the first (lowest) and last (highest) position. -/
theorem c8_empty_extremal [Inhabited K] [Inhabited V]
    (data : List (kv K V)) :
    (data = [] →
      First data = default ∧ Last data = default ∧
      Min data = default ∧ Max data = default ∧
      FirstKey data = (default : K) ∧ LastKey data = (default : K) ∧
      MinKey data = (default : K) ∧ MaxKey data = (default : K)) ∧
    (∀ h : data ≠ [],
      First data = (data.get ⟨0, List.length_pos.mpr h⟩).Value ∧
      Min data = (data.get ⟨0, List.length_pos.mpr h⟩).Value ∧
      Last data = (data.get ⟨data.length - 1,
        Nat.sub_lt (List.length_pos.mpr h) Nat.one_pos⟩).Value ∧
      Max data = (data.get ⟨data.length - 1,
        Nat.sub_lt (List.length_pos.mpr h) Nat.one_pos⟩).Value ∧
      FirstKey data = (data.get ⟨0, List.length_pos.mpr h⟩).Key ∧
      MinKey data = (data.get ⟨0, List.length_pos.mpr h⟩).Key ∧
      LastKey data = (data.get ⟨data.length - 1,
        Nat.sub_lt (List.length_pos.mpr h) Nat.one_pos⟩).Key ∧
      MaxKey data = (data.get ⟨data.length - 1,
        Nat.sub_lt (List.length_pos.mpr h) Nat.one_pos⟩).Key) := by
  constructor
  · rintro rfl
    exact ⟨rfl, rfl, rfl, rfl, rfl, rfl, rfl, rfl⟩
  · intro h
    have hlen : ¬data.length = 0 := fun h0 => h (List.length_eq_zero.mp h0)
    refine ⟨?_, ?_, ?_, ?_, ?_, ?_, ?_, ?_⟩ <;>
      simp [First, Last, Min, Max, FirstKey, LastKey, MinKey, MaxKey, hlen]

/-- Witness for C8 at `[]` and `[(1,10)]`. -/
theorem c8_witness :
    First ([] : List (kv Nat Nat)) = default ∧
    First ([⟨1, 10⟩] : List (kv Nat Nat)) =
      (([⟨1, 10⟩] : List (kv Nat Nat)).get ⟨0, by decide⟩).Value :=
  ⟨((c8_empty_extremal ([] : List (kv Nat Nat))).1 rfl).1,
    ((c8_empty_extremal [⟨1, 10⟩]).2 (by decide)).1⟩

/-- C10: `Add` and `Delete` at key `k` leave the mapping of every other
key unchanged — lookups of other keys are unaffected and the subsequence
of entries with keys other than `k` is preserved verbatim (same entries,
same relative order). -/
theorem c10_keyed_mutation_frame [LinearOrder K] [Inhabited V]
    (data : List (kv K V)) (k k2 : K) (v : V) (hs : SortedData data)
    (hne : k2 ≠ k) :
    Get (Add data k v) k2 = Get data k2 ∧
    Get (Delete data k).1 k2 = Get data k2 ∧
    (Add data k v).filter (fun e => decide (e.Key ≠ k)) =
      data.filter (fun e => decide (e.Key ≠ k)) ∧
    ((Delete data k).1).filter (fun e => decide (e.Key ≠ k)) =
      data.filter (fun e => decide (e.Key ≠ k)) :=
  ⟨get_frame_of_filter_eq hs (add_sorted hs) hne add_filter_frame,
    get_frame_of_filter_eq hs (delete_sorted hs) hne delete_filter_frame,
    add_filter_frame, delete_filter_frame⟩

/-- Witness for C10: inserting key 2 into `[(1,10), (3,30)]` does not
change the lookup of key 1. -/
theorem c10_witness :
    Get (Add ([⟨1, 10⟩, ⟨3, 30⟩] : List (kv Nat Nat)) 2 20) 1 =
      Get ([⟨1, 10⟩, ⟨3, 30⟩] : List (kv Nat Nat)) 1 :=
  (c10_keyed_mutation_frame [⟨1, 10⟩, ⟨3, 30⟩] 2 1 20 (by decide)
    (by decide)).1

end SortedSlice
